import Mathlib

/-!
Koko: the Fortran-callable adapter `Src/linenoise/linenoise_f90.c`

A shallow embedding of `CompletionFunc`, `nextline`, `loadhistory`, `savehistory` and `promptcolor` of `linenoise_f90.c` and of the two
module-level variables they share (`prompt_color`, `hidx`).

Conventions of the embedding.

* A byte is a natural number; a character buffer that the code only reads
  (`prompt`, `fname`, a history line, the line returned by `linenoise`) is the
  list of bytes stored from the pointer on, and the byte after the list is
  NUL.  `cstr` gives the C string such a buffer holds.
* A local array with a declared size (`tmp_prompt`, `ln_prompt`, `cfname`) is
  a list of exactly that many bytes.  A store outside it is a `Fault`: C gives
  such a store no meaning.  Locals start as zeros; every byte the code reads
  from a local has been written before it is read.
* `response` points into memory owned by the caller and is embedded twice.
  In `nextline` it is a map from the offset to the byte, so that a store at
  an offset at or beyond `lenrs` is seen and its effect can be stated.  In
  `nextlineChecked` it is an object of a given number of bytes, as the
  character variable of the caller is, and a store outside it is a `Fault`,
  as for the local arrays.
* `int` values are integers; a conversion to `size_t` is written `toSizeT`.
* The line-editing library is not part of the file.  Its history is a list of
  lines, oldest first, kept in `State.history`; what `linenoise` returns is an
  argument of `nextline`.  Completion callbacks run inside `linenoise`, that
  is after `nextline` has built its prompt and before it touches `hidx`; as
  the first half of `nextline` reads only `prompt_color`, which no callback
  changes, a callback is the same as a `CompletionFunc` step taken before
  the `nextline` step.
-/

namespace Koko

/-! ## Constants -/

/-- The constant `PROMPT_LEN`: max number of characters in prompt. -/
def PROMPT_LEN : Nat := 64

/-- The constant `FNAME_LEN`: max file name length. -/
def FNAME_LEN : Nat := 256

/-- The constant `MAX_HISTORY`: max length of command history. -/
def MAX_HISTORY : Nat := 250

/-- The constant `ESC`, the character `\x1b`. -/
def ESC : Nat := 27

/-! ## C strings and the C library -/

/-- What goes wrong when a store leaves a local array. -/
inductive Fault where
  | outOfBounds
  deriving DecidableEq, Repr

/-- The C string held by a buffer: its bytes before the first NUL. -/
def cstr (s : List Nat) : List Nat := s.takeWhile (fun c => c != 0)

/-- The function `strlen`. -/
def strlen (s : List Nat) : Nat := (cstr s).length

/-- The function `strncmp a b n`: compares at most `n` bytes, stops after a
NUL, and returns the difference of the first two bytes that differ. -/
def strncmp : List Nat → List Nat → Nat → Int
  | _, _, 0 => 0
  | a, b, n + 1 =>
    if a.headD 0 ≠ b.headD 0 then (a.headD 0 : Int) - (b.headD 0 : Int)
    else if a.headD 0 = 0 then 0
    else strncmp a.tail b.tail n

/-- Conversion of an `int` to the 64-bit `size_t`: a negative value wraps. -/
def toSizeT (n : Int) : Nat :=
  if 0 ≤ n then n.toNat else (n + 18446744073709551616).toNat

/-- The `n` bytes that `strncpy (dst, src, n)` stores at `dst`: the string
`src` cut at `n` bytes, then NULs up to `n` bytes when the string is shorter. -/
def strncpyBytes (src : List Nat) (n : Nat) : List Nat :=
  (cstr src).take n ++ List.replicate (n - strlen src) 0

/-- The call `strncpy (dst, src, n)` on a local array `dst`. -/
def strncpy (dst src : List Nat) (n : Nat) : Except Fault (List Nat) :=
  if n ≤ dst.length then .ok (strncpyBytes src n ++ dst.drop n)
  else .error .outOfBounds

/-- The assignment `buf[i] = c` on a local array `buf`. -/
def storeAt (buf : List Nat) (i : Int) (c : Nat) : Except Fault (List Nat) :=
  if 0 ≤ i ∧ i < buf.length then .ok (buf.set i.toNat c)
  else .error .outOfBounds

/-- The call `sprintf (buf, ...)` on a local array `buf`, where `out` is the
formatted text: the text and a closing NUL are stored from `buf[0]` on. -/
def sprintf (buf out : List Nat) : Except Fault (List Nat) :=
  if out.length + 1 ≤ buf.length then .ok (out ++ 0 :: buf.drop (out.length + 1))
  else .error .outOfBounds

/-- The call `strcpy (dst, src)` on an array `dst` of known size: the string
and its closing NUL are stored from `dst[0]` on. -/
def strcpy (dst src : List Nat) : Except Fault (List Nat) :=
  if strlen src + 1 ≤ dst.length then .ok (cstr src ++ 0 :: dst.drop (strlen src + 1))
  else .error .outOfBounds

/-- The call `memset (buf + off, c, n)` on an array `buf` of known size. -/
def memset (buf : List Nat) (off c n : Nat) : Except Fault (List Nat) :=
  if off + n ≤ buf.length then .ok (buf.take off ++ List.replicate n c ++ buf.drop (off + n))
  else .error .outOfBounds

/-- Decimal digits of a natural number, most significant first, as ASCII. -/
def decimalNat : Nat → Nat → List Nat → List Nat
  | 0, _, acc => acc
  | fuel + 1, n, acc =>
    if n < 10 then (48 + n) :: acc
    else decimalNat fuel (n / 10) ((48 + n % 10) :: acc)

/-- What the conversion `%d` prints: a minus sign for a negative value, then
the decimal digits. -/
def decimal (n : Int) : List Nat :=
  if n < 0 then 45 :: decimalNat (n.natAbs + 1) n.natAbs []
  else decimalNat (n.toNat + 1) n.toNat []

/-- The text produced by the format `"%c[38;5;%dm%s%c[38;5;0m"` with the
arguments `ESC`, `color`, `text`, `ESC`. -/
def promptFormat (color : Int) (text : List Nat) : List Nat :=
  -- ESC [ 3 8 ; 5 ;
  [ESC, 91, 51, 56, 59, 53, 59] ++ decimal color
  -- m
    ++ [109] ++ text
  -- ESC [ 3 8 ; 5 ; 0 m
    ++ [ESC, 91, 51, 56, 59, 53, 59, 48, 109]

/-- Memory behind a pointer of the caller: the byte at each offset. -/
abbrev Mem := Nat → Nat

/-- Stores the bytes `bs` at the offsets `off`, `off + 1`, ... -/
def Mem.write (m : Mem) (off : Nat) (bs : List Nat) : Mem :=
  fun i => if off ≤ i ∧ i < off + bs.length then bs.getD (i - off) 0 else m i

/-- The first `n` bytes behind the pointer. -/
def Mem.read (m : Mem) (n : Nat) : List Nat := (List.range n).map m

/-- The bytes of the literal `"exit"`. -/
def exitText : List Nat := [101, 120, 105, 116]

/-- The space character. -/
def SPACE : Nat := 32

/-! ## The module state and the library's history -/

/-- The two static variables of the file and the library's history list. -/
structure State where
  /-- ANSI 8-bit foreground color code for prompt (default is black). -/
  prompt_color : Int
  /-- The cursor for command completion; `-1` when unset. -/
  hidx : Int
  /-- The history held by the library, oldest line first. -/
  history : List (List Nat)

/-- Modelled from the spec: `linenoiseHistoryLen` of the library, which is not
in the file; the number of entries of the history list. -/
def linenoiseHistoryLen (history : List (List Nat)) : Int := history.length

/-- Modelled from the spec: `linenoiseHistoryLine` of the library, which is
not in the file; a copy of the entry at the 0-based index `i`, and NULL
(`none`) when there is no such entry. -/
def linenoiseHistoryLine (history : List (List Nat)) (i : Int) : Option (List Nat) :=
  if 0 ≤ i then history[i.toNat]? else none

/-- Modelled from the spec: `linenoiseHistoryAdd` of the library, which is not
in the file; appends the line to the history. -/
def linenoiseHistoryAdd (history : List (List Nat)) (line : List Nat) : List (List Nat) :=
  history ++ [line]

/-- Modelled from the spec: `linenoiseAddCompletion` of the library, which is
not in the file; adds one candidate to the accumulator. -/
def linenoiseAddCompletion (lc : List (List Nat)) (s : List Nat) : List (List Nat) :=
  lc ++ [s]

/-! ## `CompletionFunc` -/

/-- Outcome of the loop of `CompletionFunc`: the cursor, the accumulator and
the indices passed to `linenoiseHistoryLine`, in the order of the calls. -/
structure Scan where
  hidx : Int
  completions : List (List Nat)
  visited : List Int

/-- The loop `for (i = hidx; i >= 0; i--)` of `CompletionFunc`, entered with
`i + 1 = n`: the iteration for `i`, then the loop from `i - 1` on. -/
def scanBack (pfx : List Nat) (history : List (List Nat)) (hidx : Int)
    (lc : List (List Nat)) : Nat → Scan
  | 0 => { hidx := hidx, completions := lc, visited := [] }
  | i + 1 =>
    match linenoiseHistoryLine history i with
    | some history_line =>
      if strncmp pfx history_line (strlen pfx) = 0 then
        { hidx := (i : Int) - 1
          completions := linenoiseAddCompletion lc history_line
          visited := [(i : Int)] }
      else
        let r := scanBack pfx history hidx lc i
        { r with visited := (i : Int) :: r.visited }
    | none =>
      let r := scanBack pfx history hidx lc i
      { r with visited := (i : Int) :: r.visited }

/-- Outcome of one call of `CompletionFunc`. -/
structure Completion where
  state : State
  completions : List (List Nat)
  visited : List Int

/-- Lines 60-62 of `CompletionFunc`: the value of `hidx` when the loop is
entered, that is the index at which the scan starts. -/
def startIndex (st : State) : Int :=
  if st.hidx < 0 then linenoiseHistoryLen st.history - 1 else st.hidx

/-- The function `CompletionFunc (prefix, completion_list)`. -/
def CompletionFunc (st : State) (pfx : List Nat) (lc : List (List Nat)) : Completion :=
  let hidx : Int := startIndex st
  let r := scanBack pfx st.history hidx lc (hidx + 1).toNat
  { state := { st with hidx := r.hidx }, completions := r.completions, visited := r.visited }

/-- Repeated completion triggers with the same text and no `nextline` in
between: what each call, given an empty accumulator, offers. -/
def triggers (pfx : List Nat) : Nat → State → List (List (List Nat))
  | 0, _ => []
  | n + 1, st =>
    (CompletionFunc st pfx []).completions :: triggers pfx n (CompletionFunc st pfx []).state

/-! ## `nextline` -/

/-- Lines 108-113 of `nextline`: the number `nc` of bytes of the prompt that
are copied, `ncprs` or `PROMPT_LEN - 1` when `ncprs` is larger. -/
def promptChars (ncprs : Int) : Int :=
  if ncprs > (PROMPT_LEN : Int) - 1 then (PROMPT_LEN : Int) - 1 else ncprs

/-- Lines 107-115 of `nextline`: the prompt copied into `tmp_prompt`. -/
def tmpPrompt (prompt : List Nat) (ncprs : Int) : Except Fault (List Nat) :=
  match strncpy (List.replicate PROMPT_LEN 0) prompt (toSizeT (promptChars ncprs)) with
  | .error e => .error e
  | .ok tmp_prompt => storeAt tmp_prompt (promptChars ncprs) 0

/-- Lines 107-118 of `nextline`: the string in `ln_prompt` that is passed to
`linenoise`. -/
def lnPrompt (color : Int) (prompt : List Nat) (ncprs : Int) : Except Fault (List Nat) :=
  match tmpPrompt prompt ncprs with
  | .error e => .error e
  | .ok tmp_prompt =>
    match sprintf (List.replicate PROMPT_LEN 0) (promptFormat color (cstr tmp_prompt)) with
    | .error e => .error e
    | .ok ln_prompt => .ok (cstr ln_prompt)

/-- Lines 123-135 of `nextline`: the stores into `response`, taken as the
memory behind the pointer.  Nothing bounds the stores here; a store at an
offset at or beyond `lenrs` is outside the destination of the caller, and
`copyResponseChecked` is the same code on a destination of a given size. -/
def copyResponse (response : Mem) (lenrs : Int) (ln_response : Option (List Nat)) : Mem :=
  let copied : Mem :=
    match ln_response with
    | some line => response.write 0 (strncpyBytes line (toSizeT lenrs))
    | none => response.write 0 (exitText ++ [0])
  let nc : Int :=
    match ln_response with
    | some line => (strlen line : Int)
    | none => 4
  if nc < lenrs then copied.write nc.toNat (List.replicate (toSizeT (lenrs - nc)) SPACE)
  else copied

/-- Outcome of one call of `nextline`. -/
structure Line where
  state : State
  response : Mem
  /-- The decorated prompt that was passed to `linenoise`. -/
  ln_prompt : List Nat

/-- The function `nextline (prompt, ncprs, response, lenrs)`; `ln_response`
is what the call `linenoise (ln_prompt)` returns, `none` for NULL. -/
def nextline (st : State) (prompt : List Nat) (ncprs : Int) (response : Mem) (lenrs : Int)
    (ln_response : Option (List Nat)) : Except Fault Line :=
  match lnPrompt st.prompt_color prompt ncprs with
  | .error e => .error e
  | .ok ln_prompt =>
    let history :=
      match ln_response with
      | some line => linenoiseHistoryAdd st.history line
      | none => st.history
    .ok { state := { st with hidx := -1, history := history }
          response := copyResponse response lenrs ln_response
          ln_prompt := ln_prompt }

/-- Lines 123-135 of `nextline` when `response` is an object of
`response.length` bytes: the same calls as in `copyResponse`, where a store
outside the object is a `Fault`. -/
def copyResponseChecked (response : List Nat) (lenrs : Int)
    (ln_response : Option (List Nat)) : Except Fault (List Nat) :=
  let copied : Except Fault (List Nat) :=
    match ln_response with
    | some line => strncpy response line (toSizeT lenrs)
    | none => strcpy response exitText
  let nc : Int :=
    match ln_response with
    | some line => (strlen line : Int)
    | none => 4
  match copied with
  | .error e => .error e
  | .ok copied =>
    if nc < lenrs then memset copied nc.toNat SPACE (toSizeT (lenrs - nc))
    else .ok copied

/-- Outcome of one call of `nextline` on a response that is an object. -/
structure LineChecked where
  state : State
  response : List Nat
  /-- The decorated prompt that was passed to `linenoise`. -/
  ln_prompt : List Nat

/-- The function `nextline (prompt, ncprs, response, lenrs)` when `response`
is an object of `response.length` bytes. -/
def nextlineChecked (st : State) (prompt : List Nat) (ncprs : Int) (response : List Nat)
    (lenrs : Int) (ln_response : Option (List Nat)) : Except Fault LineChecked :=
  match lnPrompt st.prompt_color prompt ncprs with
  | .error e => .error e
  | .ok ln_prompt =>
    match copyResponseChecked response lenrs ln_response with
    | .error e => .error e
    | .ok copied =>
      let history :=
        match ln_response with
        | some line => linenoiseHistoryAdd st.history line
        | none => st.history
      .ok { state := { st with hidx := -1, history := history }
            response := copied
            ln_prompt := ln_prompt }

/-! ## `loadhistory`, `savehistory`, `promptcolor` -/

/-- The body shared by `loadhistory` and `savehistory`: the file name copied
into `cfname`; the result is the C string handed to the library. -/
def cfname (fname : List Nat) (ncs : Int) : Except Fault (List Nat) :=
  match strncpy (List.replicate FNAME_LEN 0) fname (toSizeT ncs) with
  | .error e => .error e
  | .ok buf =>
    match storeAt buf ncs 0 with
    | .error e => .error e
    | .ok buf => .ok (cstr buf)

/-- The function `loadhistory (fname, ncs)`: the path passed to
`linenoiseHistoryLoad`.  What the library reads from the file is not part of
the embedding. -/
def loadhistory (fname : List Nat) (ncs : Int) : Except Fault (List Nat) :=
  cfname fname ncs

/-- The function `savehistory (fname, ncs)`: the path and the cap passed to
`linenoiseHistorySave`, and the state after `linenoiseHistoryFree`. -/
def savehistory (st : State) (fname : List Nat) (ncs : Int) :
    Except Fault (List Nat × Nat × State) :=
  match cfname fname ncs with
  | .error e => .error e
  | .ok path => .ok (path, MAX_HISTORY, { st with history := [] })

/-- The function `promptcolor (acc)`. -/
def promptcolor (st : State) (acc : Int) : State := { st with prompt_color := acc }

/-! ## Runs of the adapter -/

/-- One call of `nextline` or of `CompletionFunc`. -/
inductive Step : State → State → Prop
  | nextline (st : State) (prompt : List Nat) (ncprs : Int) (response : Mem) (lenrs : Int)
      (ln_response : Option (List Nat)) (out : Line) :
      nextline st prompt ncprs response lenrs ln_response = .ok out → Step st out.state
  | completion (st : State) (pfx : List Nat) (lc : List (List Nat)) :
      Step st (CompletionFunc st pfx lc).state

/-- The states reached from an initial state, where the cursor is unset, by
calls of `nextline` and `CompletionFunc`. -/
inductive Reachable : State → Prop
  | init (color : Int) (history : List (List Nat)) :
      Reachable { prompt_color := color, hidx := -1, history := history }
  | step {s t : State} : Reachable s → Step s t → Reachable t

/-- The entry `line` starts with the text of `pfx`: the bytes of the text are
the first bytes of the entry. -/
def StartsWith (pfx line : List Nat) : Prop := cstr pfx <+: line

instance (pfx line : List Nat) : Decidable (StartsWith pfx line) := by
  unfold StartsWith
  infer_instance

/-- The history of the example: "add 1 2", "add 3 4", "sub 5 6". -/
def exampleHistory : List (List Nat) :=
  [[97, 100, 100, 32, 49, 32, 50], [97, 100, 100, 32, 51, 32, 52], [115, 117, 98, 32, 53, 32, 54]]

/-- The text "add". -/
def exampleAdd : List Nat := [97, 100, 100]

/-! ## Facts about the C library functions -/

theorem toSizeT_of_nonneg {n : Int} (h : 0 ≤ n) : toSizeT n = n.toNat := by
  simp [toSizeT, h]

theorem toSizeT_natCast (n : Nat) : toSizeT (n : Int) = n := by
  simp [toSizeT]

theorem strncpyBytes_length (src : List Nat) (n : Nat) : (strncpyBytes src n).length = n := by
  simp only [strncpyBytes, strlen, List.length_append, List.length_take, List.length_replicate]
  omega

theorem getD_replicate_same (k j a : Nat) : (List.replicate k a).getD j a = a := by
  induction k generalizing j with
  | zero => simp
  | succ k ih =>
    cases j with
    | zero => simp [List.replicate_succ]
    | succ j => simp [List.replicate_succ, ih j]

theorem strncpyBytes_getD (src : List Nat) (n i : Nat) (h : i < n) :
    (strncpyBytes src n).getD i 0 = (cstr src).getD i 0 := by
  unfold strncpyBytes strlen
  have hlen : ((cstr src).take n).length = min n (cstr src).length := List.length_take _ _
  by_cases hi : i < (cstr src).length
  · have h1 : i < ((cstr src).take n).length := by omega
    rw [List.getD_append _ _ _ _ h1, List.getD_eq_getElem _ _ h1, List.getD_eq_getElem _ _ hi]
    simp
  · have h1 : ((cstr src).take n).length ≤ i := by omega
    rw [List.getD_append_right _ _ _ _ h1, getD_replicate_same,
      List.getD_eq_default _ _ (by omega)]

theorem take_length_takeWhile (p : Nat → Bool) (l : List Nat) :
    l.take (l.takeWhile p).length = l.takeWhile p := by
  induction l with
  | nil => rfl
  | cons x l ih =>
    by_cases hx : p x
    · simp [List.takeWhile_cons, hx, ih]
    · simp [List.takeWhile_cons, hx]

theorem take_strlen (s : List Nat) : s.take (strlen s) = cstr s :=
  take_length_takeWhile _ s

theorem strlen_le_length (s : List Nat) : strlen s ≤ s.length := by
  have h := congrArg List.length (take_strlen s)
  rw [List.length_take] at h
  unfold strlen
  unfold strlen at h
  omega

theorem ne_zero_of_mem_cstr {s : List Nat} {x : Nat} (h : x ∈ cstr s) : x ≠ 0 := by
  have := List.mem_takeWhile_imp h
  simpa using this

theorem Mem.read_length (m : Mem) (n : Nat) : (m.read n).length = n := by
  simp [Mem.read]

theorem Mem.read_eq_iff (m : Mem) (n : Nat) (l : List Nat) :
    m.read n = l ↔ l.length = n ∧ ∀ i, i < n → m i = l.getD i 0 := by
  constructor
  · rintro rfl
    refine ⟨Mem.read_length m n, fun i hi => ?_⟩
    simp [Mem.read, List.getD_eq_getElem?_getD, hi]
  · rintro ⟨hl, hget⟩
    apply List.ext_getElem
    · simp [Mem.read, hl]
    · intro i h1 h2
      have hi : i < n := by simpa [Mem.read] using h1
      simp only [Mem.read, List.getElem_map, List.getElem_range]
      rw [hget i hi, List.getD_eq_getElem _ _ h2]

/-! ## The stores of `nextline` into `response` -/

theorem nextline_ok {st : State} {prompt : List Nat} {ncprs : Int} {response : Mem}
    {lenrs : Int} {ln_response : Option (List Nat)} {out : Line}
    (h : nextline st prompt ncprs response lenrs ln_response = .ok out) :
    lnPrompt st.prompt_color prompt ncprs = .ok out.ln_prompt ∧
    out.response = copyResponse response lenrs ln_response ∧
    out.state.hidx = -1 ∧
    out.state.prompt_color = st.prompt_color ∧
    (∀ line, ln_response = some line →
      out.state.history = linenoiseHistoryAdd st.history line) ∧
    (ln_response = none → out.state.history = st.history) := by
  unfold nextline at h
  split at h
  · cases h
  · rename_i p hp
    cases h
    refine ⟨hp, rfl, rfl, rfl, ?_, ?_⟩
    · rintro line rfl
      rfl
    · rintro rfl
      rfl

theorem copyResponse_line_short (response : Mem) (N : Nat) (line : List Nat)
    (h : strlen line < N) (i : Nat) :
    copyResponse response N (some line) i =
      if i < strlen line then (cstr line).getD i 0 else if i < N then SPACE else response i := by
  have h1 : ((strlen line : Nat) : Int) < (N : Int) := by exact_mod_cast h
  have h2 : toSizeT ((N : Int) - (strlen line : Int)) = N - strlen line := by
    rw [toSizeT_of_nonneg (by omega)]; omega
  simp only [copyResponse, h1, if_true, toSizeT_natCast, h2, Int.toNat_ofNat, Mem.write,
    List.length_replicate, strncpyBytes_length, Nat.sub_zero, Nat.zero_add, Nat.zero_le,
    true_and]
  by_cases hi : i < strlen line
  · have : ¬ (strlen line ≤ i ∧ i < strlen line + (N - strlen line)) := by omega
    rw [if_neg this, if_pos (by omega), if_pos hi, strncpyBytes_getD _ _ _ (by omega)]
  · by_cases hN : i < N
    · rw [if_pos (by omega), if_neg hi, if_pos hN]
      simp only [List.getD_eq_getElem?_getD, SPACE]
      rw [List.getElem?_replicate, if_pos (by omega)]
      rfl
    · rw [if_neg (by omega), if_neg (by omega), if_neg hi, if_neg hN]

theorem copyResponse_line_long (response : Mem) (N : Nat) (line : List Nat)
    (h : N ≤ strlen line) (i : Nat) :
    copyResponse response N (some line) i =
      if i < N then (cstr line).getD i 0 else response i := by
  have h1 : ¬ ((strlen line : Nat) : Int) < (N : Int) := by
    have : ¬ strlen line < N := by omega
    exact_mod_cast this
  simp only [copyResponse, h1, if_false, toSizeT_natCast, Mem.write, strncpyBytes_length,
    Nat.sub_zero, Nat.zero_add, Nat.zero_le, true_and]
  by_cases hi : i < N
  · rw [if_pos (by omega), if_pos hi, strncpyBytes_getD _ _ _ hi]
  · rw [if_neg (by omega), if_neg hi]

theorem copyResponse_null (response : Mem) (lenrs : Int) (i : Nat) :
    copyResponse response lenrs none i =
      if i < 4 then exitText.getD i 0
      else if (i : Int) < lenrs then SPACE
      else if i = 4 then 0
      else response i := by
  have hlen : (exitText ++ [0]).length = 5 := rfl
  have h3 : (4 : Int).toNat = 4 := rfl
  by_cases hl : (4 : Int) < lenrs
  · have h2 : toSizeT (lenrs - 4) = (lenrs - 4).toNat := toSizeT_of_nonneg (by omega)
    simp only [copyResponse, if_pos hl, h2, h3, Mem.write, List.length_replicate, hlen,
      Nat.sub_zero, Nat.zero_add, Nat.zero_le, true_and]
    by_cases hi : i < 4
    · rw [if_neg (by omega), if_pos (by omega), if_pos hi]
      have : i = 0 ∨ i = 1 ∨ i = 2 ∨ i = 3 := by omega
      rcases this with rfl | rfl | rfl | rfl <;> rfl
    · by_cases hN : (i : Int) < lenrs
      · rw [if_pos (by omega), if_neg hi, if_pos hN]
        simp only [List.getD_eq_getElem?_getD, SPACE]
        rw [List.getElem?_replicate, if_pos (by omega)]
        rfl
      · have h4 : i ≠ 4 := by omega
        rw [if_neg (by omega), if_neg (by omega), if_neg hi, if_neg hN, if_neg h4]
  · simp only [copyResponse, if_neg hl, Mem.write, hlen, Nat.sub_zero, Nat.zero_add,
      Nat.zero_le, true_and]
    by_cases hi : i < 4
    · rw [if_pos (by omega), if_pos hi]
      have : i = 0 ∨ i = 1 ∨ i = 2 ∨ i = 3 := by omega
      rcases this with rfl | rfl | rfl | rfl <;> rfl
    · have hN : ¬ (i : Int) < lenrs := by omega
      by_cases h4 : i = 4
      · subst h4
        rw [if_pos (by omega), if_neg hi, if_neg hN, if_pos rfl]
        rfl
      · rw [if_neg (by omega), if_neg hi, if_neg hN, if_neg h4]

/-- The stores of `nextline` into `response` stay below `lenrs` when the
library returns a line, and when it returns none and `lenrs ≥ 5`. -/
theorem copyResponse_frame (response : Mem) (N : Nat) (ln_response : Option (List Nat))
    (h : ln_response = none → 5 ≤ N) (i : Nat) (hi : N ≤ i) :
    copyResponse response (N : Int) ln_response i = response i := by
  cases ln_response with
  | none =>
    have h5 := h rfl
    have h1 : ¬ (i : Int) < (N : Int) := by omega
    rw [copyResponse_null, if_neg (by omega), if_neg h1, if_neg (by omega)]
  | some line =>
    by_cases hL : strlen line < N
    · rw [copyResponse_line_short _ _ _ hL, if_neg (by omega), if_neg (by omega)]
    · rw [copyResponse_line_long _ _ _ (by omega), if_neg (by omega)]

/-! ## Claims on the response buffer -/

theorem copyResponse_exit_read (response : Mem) (N : Nat) (hN : 4 ≤ N) :
    (copyResponse response (N : Int) none).read N
      = exitText ++ List.replicate (N - 4) SPACE := by
  rw [Mem.read_eq_iff]
  refine ⟨by simp [exitText]; omega, fun i hi => ?_⟩
  rw [copyResponse_null]
  by_cases h4 : i < 4
  · rw [if_pos h4, List.getD_append _ _ _ _ (by simpa [exitText] using h4)]
  · have h5 : (i : Int) < (N : Int) := by exact_mod_cast hi
    rw [if_neg h4, if_pos h5, List.getD_append_right _ _ _ _ (by simp [exitText]; omega)]
    simp only [List.getD_eq_getElem?_getD]
    rw [List.getElem?_replicate, if_pos (by simp [exitText]; omega)]
    rfl

theorem copyResponse_line_read (response : Mem) (N : Nat) (line : List Nat) :
    (copyResponse response (N : Int) (some line)).read N
      = (cstr line).take N ++ List.replicate (N - strlen line) SPACE := by
  rw [Mem.read_eq_iff]
  have hlen : ((cstr line).take N).length = min N (cstr line).length := List.length_take _ _
  refine ⟨by rw [List.length_append, List.length_replicate, hlen]; unfold strlen; omega,
    fun i hi => ?_⟩
  by_cases hL : strlen line < N
  · have hfull : (cstr line).take N = cstr line :=
      List.take_of_length_le (by unfold strlen at hL; omega)
    rw [copyResponse_line_short _ _ _ hL, hfull]
    by_cases h1 : i < strlen line
    · rw [if_pos h1, List.getD_append _ _ _ _ h1]
    · rw [if_neg h1, if_pos hi, List.getD_append_right _ _ _ _ (by unfold strlen at h1; omega)]
      simp only [List.getD_eq_getElem?_getD]
      rw [List.getElem?_replicate, if_pos (by unfold strlen at *; omega)]
      rfl
  · have h0 : N - strlen line = 0 := by omega
    have h1 : i < ((cstr line).take N).length := by
      unfold strlen at hL
      omega
    rw [copyResponse_line_long _ _ _ (by omega), if_pos hi, h0, List.replicate_zero,
      List.append_nil, List.getD_eq_getElem _ _ h1, List.getElem_take,
      List.getD_eq_getElem _ _ (by unfold strlen at hL; omega)]

/-- The first `N` bytes behind `response` after `nextline`, for `N ≥ 4`, when
the read of the library returns no line: "exit" and `N - 4` spaces; the
history is as it was.  At `N = 4` the NUL of `strcpy` is behind them. -/
theorem nextline_exit_bytes (st : State) (prompt : List Nat) (ncprs : Int) (response : Mem)
    (N : Nat) (out : Line) (hN : 4 ≤ N)
    (h : nextline st prompt ncprs response (N : Int) none = .ok out) :
    out.response.read N = exitText ++ List.replicate (N - 4) SPACE ∧
    out.state.history = st.history := by
  obtain ⟨-, hr, -, -, -, hh⟩ := nextline_ok h
  rw [hr]
  exact ⟨copyResponse_exit_read response N hN, hh rfl⟩

/-- On a response of `N` bytes with `lenrs = N`, when the read of the library
returns no line: the stores stay inside the response exactly when `N ≥ 5`,
and the response is then "exit" and `N - 4` spaces. -/
theorem copyResponseChecked_exit (response : List Nat) :
    copyResponseChecked response (response.length : Int) none
      = if 5 ≤ response.length
        then .ok (exitText ++ List.replicate (response.length - 4) SPACE)
        else .error .outOfBounds := by
  have hs : strlen exitText = 4 := rfl
  have hc : cstr exitText = exitText := rfl
  have h3 : (4 : Int).toNat = 4 := rfl
  by_cases h5 : 5 ≤ response.length
  · have hl : (4 : Int) < (response.length : Int) := by omega
    have h2 : toSizeT ((response.length : Int) - 4) = response.length - 4 := by
      rw [toSizeT_of_nonneg (by omega)]
      omega
    simp only [copyResponseChecked, strcpy, hs, hc, if_pos h5, if_pos hl, h2, h3, memset]
    have hlen : (exitText ++ 0 :: List.drop (4 + 1) response).length = response.length := by
      simp only [List.length_append, List.length_cons, List.length_drop, exitText,
        List.length_nil]
      omega
    rw [if_pos (by rw [hlen]; omega)]
    have hd : List.drop (4 + (response.length - 4))
        (exitText ++ 0 :: List.drop (4 + 1) response) = [] := by
      apply List.drop_eq_nil_of_le
      rw [hlen]
      omega
    have ht : List.take 4 (exitText ++ 0 :: List.drop (4 + 1) response) = exitText := by
      rw [List.take_append_of_le_length (by simp [exitText])]
      rfl
    rw [hd, ht, List.append_nil]
  · simp only [copyResponseChecked, strcpy, hs, if_neg h5]

/-- On a response of `N` bytes with `lenrs = N`, when the library returns a
line: the stores stay inside the response, which is then the line cut at `N`
bytes followed by spaces up to `N` bytes. -/
theorem copyResponseChecked_line (response line : List Nat) :
    copyResponseChecked response (response.length : Int) (some line)
      = .ok ((cstr line).take response.length
          ++ List.replicate (response.length - strlen line) SPACE) := by
  have hcopy : strncpy response line response.length = .ok (strncpyBytes line response.length) := by
    unfold strncpy
    rw [if_pos (le_refl _), List.drop_length, List.append_nil]
  by_cases hL : strlen line < response.length
  · have h1 : ((strlen line : Nat) : Int) < (response.length : Int) := by exact_mod_cast hL
    have h2 : toSizeT ((response.length : Int) - (strlen line : Int))
        = response.length - strlen line := by
      rw [toSizeT_of_nonneg (by omega)]
      omega
    simp only [copyResponseChecked, toSizeT_natCast, hcopy, if_pos h1, h2, Int.toNat_ofNat,
      memset, strncpyBytes_length]
    rw [if_pos (by omega)]
    have hd : List.drop (strlen line + (response.length - strlen line))
        (strncpyBytes line response.length) = [] := by
      apply List.drop_eq_nil_of_le
      rw [strncpyBytes_length]
      omega
    have hfull : (cstr line).take response.length = cstr line :=
      List.take_of_length_le (by unfold strlen at hL; omega)
    have ht : List.take (strlen line) (strncpyBytes line response.length) = cstr line := by
      unfold strncpyBytes strlen
      rw [hfull]
      simp
    rw [hd, ht, hfull, List.append_nil]
  · have h1 : ¬ ((strlen line : Nat) : Int) < (response.length : Int) := by
      exact_mod_cast hL
    have h0 : response.length - strlen line = 0 := by omega
    simp only [copyResponseChecked, toSizeT_natCast, hcopy, if_neg h1]
    unfold strncpyBytes
    rw [h0]
    rfl

/-- Wherever the stores stay inside a response of `N` bytes, with
`lenrs = N`, the response is the first `N` bytes that `copyResponse` leaves
behind the pointer. -/
theorem copyResponseChecked_agrees (response : List Nat) (ln_response : Option (List Nat))
    (r : List Nat)
    (h : copyResponseChecked response (response.length : Int) ln_response = .ok r) :
    (copyResponse (fun i => response.getD i 0) (response.length : Int) ln_response).read
      response.length = r := by
  cases ln_response with
  | none =>
    rw [copyResponseChecked_exit] at h
    split at h
    · rename_i h5
      cases h
      exact copyResponse_exit_read _ _ (by omega)
    · cases h
  | some line =>
    rw [copyResponseChecked_line] at h
    cases h
    exact copyResponse_line_read _ _ _

/-- C3, the code at `N = 4` when the read of the library returns no line:
`strcpy` stores the five bytes of "exit" and its NUL whatever `lenrs` is, so
that on a response of 4 bytes the last store is outside the response; on a
response of 5 bytes the stores stay inside, the response is "exit" and one
space, and nothing is added to the history. -/
theorem nextline_exit_overflow_at_four :
    nextlineChecked ⟨0, -1, [[97]]⟩ [62] 1 (List.replicate 4 120) 4 none
      = .error .outOfBounds ∧
    ∃ out, nextlineChecked ⟨0, -1, [[97]]⟩ [62] 1 (List.replicate 5 120) 5 none = .ok out ∧
      out.response = exitText ++ [SPACE] ∧ out.state.history = [[97]] :=
  ⟨rfl, _, rfl, rfl, rfl⟩

/-- C10, the code at `lenrs = 4` when the library returns no line: `strcpy`
stores the five bytes of "exit" and its NUL, so the byte at the offset 4,
which is not below `lenrs`, changes from 120 to 0. -/
theorem nextline_exit_store_past_lenrs :
    ∃ out, nextline ⟨0, -1, []⟩ [62] 1 (fun _ => 120) 4 none = .ok out ∧
      (fun _ => 120 : Mem) 4 = 120 ∧ out.response 4 = 0 :=
  ⟨_, rfl, rfl, rfl⟩

/-! ## The prompt built by `nextline` -/

theorem cstr_append_zero (l rest : List Nat) (h : ∀ x ∈ l, x ≠ 0) :
    cstr (l ++ 0 :: rest) = l := by
  unfold cstr
  rw [List.takeWhile_append_of_pos (fun x hx => by simpa using h x hx)]
  simp

theorem set_same (l : List Nat) (k a : Nat) (h : l.getD k a = a) : l.set k a = l := by
  induction l generalizing k with
  | nil => rfl
  | cons x l ih =>
    cases k with
    | zero =>
      have hx : x = a := by simpa using h
      simp [hx]
    | succ k =>
      have hk : l.getD k a = a := by simpa using h
      simp [ih k hk]

theorem strncpyBytes_append_zeros (src : List Nat) (k m : Nat) :
    strncpyBytes src k ++ List.replicate m 0
      = (cstr src).take k ++ List.replicate (k - strlen src + m) 0 := by
  unfold strncpyBytes
  rw [List.append_assoc, List.append_replicate_replicate]

theorem promptChars_bounds (ncprs : Int) (h0 : 0 ≤ ncprs) :
    0 ≤ promptChars ncprs ∧ promptChars ncprs < (PROMPT_LEN : Int) := by
  unfold promptChars PROMPT_LEN
  split <;> omega

theorem promptChars_toNat_le (ncprs : Int) : (promptChars ncprs).toNat ≤ 63 := by
  unfold promptChars PROMPT_LEN
  split <;> omega

theorem tmpPrompt_eq (prompt : List Nat) (ncprs : Int) (h0 : 0 ≤ ncprs) :
    tmpPrompt prompt ncprs
      = .ok (strncpyBytes prompt (promptChars ncprs).toNat
          ++ List.replicate (PROMPT_LEN - (promptChars ncprs).toNat) 0) := by
  have hk := promptChars_toNat_le ncprs
  obtain ⟨hnc, hnc63⟩ := promptChars_bounds ncprs h0
  unfold tmpPrompt
  rw [toSizeT_of_nonneg hnc]
  have hcopy : strncpy (List.replicate PROMPT_LEN 0) prompt (promptChars ncprs).toNat
      = .ok (strncpyBytes prompt (promptChars ncprs).toNat
          ++ List.replicate (PROMPT_LEN - (promptChars ncprs).toNat) 0) := by
    unfold strncpy
    rw [if_pos (by simp [PROMPT_LEN]; omega), List.drop_replicate]
  rw [hcopy]
  have hlen : (strncpyBytes prompt (promptChars ncprs).toNat
      ++ List.replicate (PROMPT_LEN - (promptChars ncprs).toNat) 0).length = PROMPT_LEN := by
    simp only [List.length_append, strncpyBytes_length, List.length_replicate, PROMPT_LEN]
    omega
  simp only [storeAt, hlen]
  rw [if_pos ⟨hnc, hnc63⟩]
  congr 1
  apply set_same
  rw [List.getD_append_right _ _ _ _ (by rw [strncpyBytes_length])]
  exact getD_replicate_same _ _ _

theorem cstr_tmpPrompt (prompt : List Nat) (k : Nat) (hk : k ≤ 63) :
    cstr (strncpyBytes prompt k ++ List.replicate (PROMPT_LEN - k) 0)
      = (cstr prompt).take k := by
  rw [strncpyBytes_append_zeros]
  have hpos : k - strlen prompt + (PROMPT_LEN - k)
      = (k - strlen prompt + (PROMPT_LEN - k) - 1) + 1 := by
    unfold PROMPT_LEN
    omega
  rw [hpos, List.replicate_succ]
  exact cstr_append_zero _ _ (fun x hx => ne_zero_of_mem_cstr (List.mem_of_mem_take hx))

theorem decimalNat_ne_zero (fuel n : Nat) (acc : List Nat) (hacc : ∀ x ∈ acc, x ≠ 0) :
    ∀ x ∈ decimalNat fuel n acc, x ≠ 0 := by
  induction fuel generalizing n acc with
  | zero => simpa [decimalNat] using hacc
  | succ fuel ih =>
    unfold decimalNat
    split
    · intro x hx
      rcases List.mem_cons.1 hx with rfl | hx
      · omega
      · exact hacc x hx
    · apply ih
      intro x hx
      rcases List.mem_cons.1 hx with rfl | hx
      · omega
      · exact hacc x hx

theorem decimal_ne_zero (n : Int) : ∀ x ∈ decimal n, x ≠ 0 := by
  unfold decimal
  split
  · intro x hx
    rcases List.mem_cons.1 hx with rfl | hx
    · decide
    · exact decimalNat_ne_zero _ _ [] (by simp) x hx
  · exact decimalNat_ne_zero _ _ [] (by simp)

theorem promptFormat_ne_zero (color : Int) (text : List Nat) (h : ∀ x ∈ text, x ≠ 0) :
    ∀ x ∈ promptFormat color text, x ≠ 0 := by
  intro x hx
  simp only [promptFormat, List.mem_append] at hx
  rcases hx with (((hx | hx) | hx) | hx) | hx
  · simp only [ESC, List.mem_cons, List.mem_singleton, List.not_mem_nil, or_false] at hx
    omega
  · exact decimal_ne_zero color x hx
  · simp only [List.mem_singleton] at hx
    omega
  · exact h x hx
  · simp only [ESC, List.mem_cons, List.mem_singleton, List.not_mem_nil, or_false] at hx
    omega

theorem promptFormat_length (color : Int) (text : List Nat) :
    (promptFormat color text).length = 17 + (decimal color).length + text.length := by
  simp only [promptFormat, List.length_append, List.length_cons, List.length_nil]
  omega

/-- What `nextline` passes to `linenoise`, for every `ncprs ≥ 0`: the format
applied to the kept bytes of the prompt when that text and its NUL fit in the
`PROMPT_LEN` bytes of `ln_prompt`, and a store outside `ln_prompt` otherwise. -/
theorem lnPrompt_eq (color : Int) (prompt : List Nat) (ncprs : Int) (h0 : 0 ≤ ncprs) :
    lnPrompt color prompt ncprs
      = if (promptFormat color ((cstr prompt).take ((promptChars ncprs).toNat))).length + 1 ≤ PROMPT_LEN
        then .ok (promptFormat color ((cstr prompt).take ((promptChars ncprs).toNat)))
        else .error .outOfBounds := by
  unfold lnPrompt
  rw [tmpPrompt_eq prompt ncprs h0]
  simp only [cstr_tmpPrompt prompt _ (promptChars_toNat_le ncprs), sprintf, List.length_replicate]
  by_cases hfit :
      (promptFormat color ((cstr prompt).take ((promptChars ncprs).toNat))).length + 1 ≤ PROMPT_LEN
  · simp only [if_pos hfit]
    rw [cstr_append_zero _ _ (promptFormat_ne_zero _ _
      (fun x hx => ne_zero_of_mem_cstr (List.mem_of_mem_take hx)))]
  · simp only [if_neg hfit]

/-- The function `nextline` returns whenever `ncprs ≥ 0` and the decorated
prompt fits in `ln_prompt`. -/
theorem nextline_returns (st : State) (prompt : List Nat) (ncprs : Int) (response : Mem)
    (lenrs : Int) (ln_response : Option (List Nat)) (h0 : 0 ≤ ncprs)
    (hfit : 18 + (decimal st.prompt_color).length + (promptChars ncprs).toNat ≤ PROMPT_LEN) :
    ∃ out, nextline st prompt ncprs response lenrs ln_response = .ok out ∧
      out.ln_prompt = promptFormat st.prompt_color ((cstr prompt).take ((promptChars ncprs).toNat)) := by
  have hlen : (promptFormat st.prompt_color ((cstr prompt).take ((promptChars ncprs).toNat))).length + 1
      ≤ PROMPT_LEN := by
    rw [promptFormat_length, List.length_take]
    omega
  unfold nextline
  rw [lnPrompt_eq _ _ _ h0, if_pos hlen]
  exact ⟨_, rfl, rfl⟩

/-- The decorated prompt of a prompt without NUL whose `ncprs` bytes and the
escape sequences fit in `ln_prompt`: the escape sequence of the color stored
by the last `promptcolor`, the prompt, and the closing escape sequence. -/
theorem nextline_decorated_prompt (st : State) (acc : Int) (prompt : List Nat)
    (response : Mem) (lenrs : Int) (ln_response : Option (List Nat))
    (hnul : ∀ x ∈ prompt, x ≠ 0)
    (hfit : 18 + (decimal acc).length + prompt.length ≤ PROMPT_LEN) :
    ∃ out, nextline (promptcolor st acc) prompt prompt.length response lenrs ln_response
        = .ok out ∧
      out.ln_prompt = promptFormat acc prompt ∧ out.state.prompt_color = acc := by
  have hk : (promptChars (prompt.length : Int)).toNat = prompt.length := by
    unfold promptChars
    unfold PROMPT_LEN at *
    split <;> omega
  have hc : cstr prompt = prompt := by
    unfold cstr
    rw [List.takeWhile_eq_self_iff]
    intro x hx
    simpa using hnul x hx
  obtain ⟨out, ho, hp⟩ := nextline_returns (promptcolor st acc) prompt prompt.length response
    lenrs ln_response (by omega) (by rw [hk]; exact hfit)
  refine ⟨out, ho, ?_, (nextline_ok ho).2.2.2.1⟩
  rw [hp, hk, hc, List.take_length]
  rfl

/-! ## Claims on the local arrays -/

theorem cfname_fault_of_ge (fname : List Nat) (ncs : Int) (h : (FNAME_LEN : Int) ≤ ncs) :
    cfname fname ncs = .error .outOfBounds := by
  have h0 : (0 : Int) ≤ ncs := le_trans (by decide) h
  unfold cfname strncpy
  rw [toSizeT_of_nonneg h0]
  simp only [List.length_replicate]
  split
  · rfl
  · rename_i buf hb
    split at hb
    · rename_i hle
      cases hb
      have hlen : (strncpyBytes fname ncs.toNat ++
          List.drop ncs.toNat (List.replicate FNAME_LEN 0)).length = FNAME_LEN := by
        simp only [List.length_append, strncpyBytes_length, List.length_drop,
          List.length_replicate]
        omega
      simp only [storeAt, hlen]
      rw [if_neg (by omega)]
    · cases hb

/-- C6, the code at `ncs = 256` with a path of 256 bytes "a": `loadhistory`
and `savehistory` do not cut the path; the closing NUL is stored at
`cfname[256]`, outside the array of `FNAME_LEN` bytes. -/
theorem history_path_store_out_of_bounds :
    loadhistory (List.replicate 256 97) 256 = .error .outOfBounds ∧
    ∀ st : State, savehistory st (List.replicate 256 97) 256 = .error .outOfBounds := by
  have h := cfname_fault_of_ge (List.replicate 256 97) 256 (by decide)
  refine ⟨h, fun st => ?_⟩
  unfold savehistory
  rw [h]

/-- Every call of `nextline` with `ncprs ≥ 64` and a prompt whose first 63
bytes are not NUL stores outside `ln_prompt`, whatever the color. -/
theorem nextline_fault_of_long_prompt (st : State) (prompt : List Nat) (ncprs : Int)
    (response : Mem) (lenrs : Int) (ln_response : Option (List Nat))
    (h : (PROMPT_LEN : Int) ≤ ncprs) (hp : 63 ≤ strlen prompt) :
    nextline st prompt ncprs response lenrs ln_response = .error .outOfBounds := by
  have hk : (promptChars ncprs).toNat = 63 := by
    unfold promptChars
    unfold PROMPT_LEN at *
    split <;> omega
  have hlen : ¬ (promptFormat st.prompt_color
      ((cstr prompt).take (promptChars ncprs).toNat)).length + 1 ≤ PROMPT_LEN := by
    rw [promptFormat_length, List.length_take, hk]
    unfold strlen at hp
    unfold PROMPT_LEN
    omega
  unfold nextline
  rw [lnPrompt_eq _ _ _ (le_trans (by decide) h), if_neg hlen]

/-- C4, the code at the color 0 with a prompt of 46 bytes "a", shorter than
64: the decorated prompt has 64 bytes, 65 with its closing NUL, and `sprintf`
stores them into the 64 bytes of `ln_prompt`, so that the last store is
outside the array. -/
theorem nextline_prompt_overflow (hidx : Int) (history : List (List Nat)) (response : Mem)
    (lenrs : Int) (ln_response : Option (List Nat)) :
    (promptFormat 0 (List.replicate 46 97)).length + 1 = 65 ∧
    nextline ⟨0, hidx, history⟩ (List.replicate 46 97) 46 response lenrs ln_response
      = .error .outOfBounds :=
  ⟨rfl, rfl⟩

set_option maxRecDepth 100000 in
/-- C5, the code at `ncprs = 64` with a prompt of 64 bytes "a" and the color
0: the prompt is cut to 63 bytes, the decorated prompt then has 81 bytes, and
the stores of `sprintf` leave the 64 bytes of `ln_prompt`. -/
theorem nextline_long_prompt_overflow (hidx : Int) (history : List (List Nat))
    (response : Mem) (lenrs : Int) (ln_response : Option (List Nat)) :
    tmpPrompt (List.replicate 64 97) 64 = .ok (List.replicate 63 97 ++ [0]) ∧
    (promptFormat 0 (List.replicate 63 97)).length = 81 ∧
    nextline ⟨0, hidx, history⟩ (List.replicate 64 97) 64 response lenrs ln_response
      = .error .outOfBounds :=
  ⟨rfl, rfl, rfl⟩

/-! ## Claims on the completion cursor -/

set_option maxRecDepth 100000 in
/-- C1, the code on the history "add 1 2", "add 3 4", "sub 5 6" with the text
"add" and the cursor unset: the first trigger offers "add 3 4", the second
"add 1 2", and the third offers "add 3 4" again, because the second one left
the cursor at `0 - 1`, which is the value of the unset cursor. -/
theorem triggers_wrap_after_oldest :
    triggers exampleAdd 3 ⟨0, -1, exampleHistory⟩ =
      [[[97, 100, 100, 32, 51, 32, 52]], [[97, 100, 100, 32, 49, 32, 50]],
       [[97, 100, 100, 32, 51, 32, 52]]] ∧
    (CompletionFunc (CompletionFunc ⟨0, -1, exampleHistory⟩ exampleAdd []).state
      exampleAdd []).state.hidx = -1 := by
  decide

theorem strncmp_eq_zero_iff (n : Nat) (a b : List Nat) (hn : n ≤ a.length)
    (h0 : ∀ x ∈ a.take n, x ≠ 0) : strncmp a b n = 0 ↔ a.take n <+: b := by
  induction n generalizing a b with
  | zero => simp [strncmp]
  | succ n ih =>
    cases a with
    | nil => simp at hn
    | cons x a =>
      have hx : x ≠ 0 := h0 x (by simp)
      have ha : ∀ y ∈ a.take n, y ≠ 0 := fun y hy => h0 y (by simp [hy])
      have hn1 : n ≤ a.length := by simpa using hn
      cases b with
      | nil =>
        have : ¬ ((x : Int) = 0) := by exact_mod_cast hx
        simp [strncmp, hx, this]
      | cons y b =>
        by_cases hxy : x = y
        · subst hxy
          simp only [strncmp, List.headD_cons, ne_eq, not_true_eq_false, if_false, hx,
            List.tail_cons, List.take_succ_cons]
          rw [ih a b hn1 ha]
          constructor
          · rintro ⟨t, rfl⟩
            exact ⟨t, rfl⟩
          · rintro ⟨t, ht⟩
            exact ⟨t, by simpa using ht⟩
        · have h1 : ¬ ((x : Int) - (y : Int) = 0) := by
            intro h
            have : (x : Int) = (y : Int) := by omega
            exact hxy (by exact_mod_cast this)
          simp only [strncmp, List.headD_cons, ne_eq, hxy, not_false_eq_true, if_true, h1,
            List.take_succ_cons, false_iff]
          rintro ⟨t, ht⟩
          simp at ht
          exact hxy ht.1

theorem strncmp_strlen_eq_zero_iff (pfx line : List Nat) :
    strncmp pfx line (strlen pfx) = 0 ↔ StartsWith pfx line := by
  rw [strncmp_eq_zero_iff _ _ _ (strlen_le_length pfx), take_strlen]
  · rfl
  · intro x hx
    rw [take_strlen] at hx
    exact ne_zero_of_mem_cstr hx

theorem linenoiseHistoryLine_natCast (history : List (List Nat)) (i : Nat) :
    linenoiseHistoryLine history (i : Int) = history[i]? := by
  simp [linenoiseHistoryLine]

theorem scanBack_cases (pfx : List Nat) (history : List (List Nat)) (hidx : Int)
    (lc : List (List Nat)) (n : Nat) :
    ((∀ i line, i < n → history[i]? = some line → ¬ StartsWith pfx line) ∧
      (scanBack pfx history hidx lc n).hidx = hidx ∧
      (scanBack pfx history hidx lc n).completions = lc) ∨
    (∃ i line, i < n ∧ history[i]? = some line ∧ StartsWith pfx line ∧
      (∀ j l, i < j → j < n → history[j]? = some l → ¬ StartsWith pfx l) ∧
      (scanBack pfx history hidx lc n).hidx = (i : Int) - 1 ∧
      (scanBack pfx history hidx lc n).completions = lc ++ [line]) := by
  induction n with
  | zero =>
    left
    exact ⟨fun i line hi => absurd hi (Nat.not_lt_zero i), rfl, rfl⟩
  | succ n ih =>
    have hstep : ∀ l, history[n]? = some l → ¬ StartsWith pfx l →
        (scanBack pfx history hidx lc (n + 1)).hidx = (scanBack pfx history hidx lc n).hidx ∧
        (scanBack pfx history hidx lc (n + 1)).completions
          = (scanBack pfx history hidx lc n).completions := by
      intro l hl hm
      have hm1 : ¬ strncmp pfx l (strlen pfx) = 0 := by
        rwa [strncmp_strlen_eq_zero_iff]
      constructor <;> simp [scanBack, linenoiseHistoryLine_natCast, hl, hm1]
    have hnone : history[n]? = none →
        (scanBack pfx history hidx lc (n + 1)).hidx = (scanBack pfx history hidx lc n).hidx ∧
        (scanBack pfx history hidx lc (n + 1)).completions
          = (scanBack pfx history hidx lc n).completions := by
      intro hl
      constructor <;> simp [scanBack, linenoiseHistoryLine_natCast, hl]
    have hskip : (∀ l, history[n]? = some l → ¬ StartsWith pfx l) →
        (scanBack pfx history hidx lc (n + 1)).hidx = (scanBack pfx history hidx lc n).hidx ∧
        (scanBack pfx history hidx lc (n + 1)).completions
          = (scanBack pfx history hidx lc n).completions := by
      intro hno
      cases hl : history[n]? with
      | none => exact hnone hl
      | some l => exact hstep l hl (hno l hl)
    by_cases hex : ∃ l, history[n]? = some l ∧ StartsWith pfx l
    · obtain ⟨l, hl, hm⟩ := hex
      right
      refine ⟨n, l, Nat.lt_succ_self n, hl, hm, fun j l2 h1 h2 => by omega, ?_, ?_⟩
      · have hm1 : strncmp pfx l (strlen pfx) = 0 := by
          rwa [strncmp_strlen_eq_zero_iff]
        simp only [scanBack, linenoiseHistoryLine_natCast, hl, hm1, if_true]
      · have hm1 : strncmp pfx l (strlen pfx) = 0 := by
          rwa [strncmp_strlen_eq_zero_iff]
        simp only [scanBack, linenoiseHistoryLine_natCast, hl, hm1, if_true,
          linenoiseAddCompletion]
    · have hno : ∀ l, history[n]? = some l → ¬ StartsWith pfx l :=
        fun l hl hm => hex ⟨l, hl, hm⟩
      obtain ⟨e1, e2⟩ := hskip hno
      rcases ih with ⟨hall, h1, h2⟩ | ⟨i, line, hi, hl, hm, hgt, h1, h2⟩
      · left
        refine ⟨fun i line hi hl => ?_, e1.trans h1, e2.trans h2⟩
        by_cases hin : i = n
        · subst hin
          exact hno line hl
        · exact hall i line (by omega) hl
      · right
        refine ⟨i, line, by omega, hl, hm, fun j l2 hj1 hj2 hl2 => ?_, e1.trans h1,
          e2.trans h2⟩
        by_cases hin : j = n
        · subst hin
          exact hno l2 hl2
        · exact hgt j l2 hj1 (by omega) hl2

theorem scanBack_visited_head (pfx : List Nat) (history : List (List Nat)) (hidx : Int)
    (lc : List (List Nat)) (n : Nat) :
    (scanBack pfx history hidx lc (n + 1)).visited.head? = some (n : Int) := by
  unfold scanBack
  split
  · split <;> rfl
  · rfl

theorem CompletionFunc_history (st : State) (pfx : List Nat) (lc : List (List Nat)) :
    (CompletionFunc st pfx lc).state.history = st.history := rfl

theorem CompletionFunc_cursor_bounds (st : State) (pfx : List Nat) (lc : List (List Nat)) :
    (CompletionFunc st pfx lc).state.hidx = startIndex st ∨
    (-1 ≤ (CompletionFunc st pfx lc).state.hidx ∧
      (CompletionFunc st pfx lc).state.hidx < startIndex st) := by
  rcases scanBack_cases pfx st.history (startIndex st) lc (startIndex st + 1).toNat with
    ⟨-, h1, -⟩ | ⟨i, line, hi, -, -, -, h1, -⟩
  · left
    exact h1
  · right
    show -1 ≤ (scanBack pfx st.history (startIndex st) lc (startIndex st + 1).toNat).hidx ∧
      (scanBack pfx st.history (startIndex st) lc (startIndex st + 1).toNat).hidx
        < startIndex st
    rw [h1]
    omega

/-- C9: one call of `CompletionFunc` scans from the index `s`, the cursor
when it is not negative and the last index of the history otherwise, and adds
at most one candidate: when some entry at an index `≤ s` starts with the text,
it adds the entry at the greatest such index `i` and nothing else and sets the
cursor to `i - 1`; when no entry at an index `≤ s` starts with the text, it
adds nothing. -/
theorem CompletionFunc_adds_greatest_match (st : State) (pfx : List Nat)
    (lc : List (List Nat)) :
    startIndex st = (if 0 ≤ st.hidx then st.hidx else (st.history.length : Int) - 1) ∧
    (CompletionFunc st pfx lc).completions.length ≤ lc.length + 1 ∧
    ((∃ (i : Nat) (line : List Nat), (i : Int) ≤ startIndex st ∧ st.history[i]? = some line ∧
        StartsWith pfx line) →
      ∃ (i : Nat) (line : List Nat), (i : Int) ≤ startIndex st ∧ st.history[i]? = some line ∧
        StartsWith pfx line ∧
        (∀ (j : Nat) (l : List Nat), i < j → (j : Int) ≤ startIndex st → st.history[j]? = some l →
          ¬ StartsWith pfx l) ∧
        (CompletionFunc st pfx lc).completions = lc ++ [line] ∧
        (CompletionFunc st pfx lc).state.hidx = (i : Int) - 1) ∧
    ((¬ ∃ (i : Nat) (line : List Nat), (i : Int) ≤ startIndex st ∧ st.history[i]? = some line ∧
        StartsWith pfx line) →
      (CompletionFunc st pfx lc).completions = lc) := by
  have hstart : startIndex st
      = (if 0 ≤ st.hidx then st.hidx else (st.history.length : Int) - 1) := by
    unfold startIndex linenoiseHistoryLen
    by_cases h : st.hidx < 0
    · rw [if_pos h, if_neg (by omega)]
    · rw [if_neg h, if_pos (by omega)]
  have hlt : ∀ i : Nat, (i : Int) ≤ startIndex st ↔ i < (startIndex st + 1).toNat := by
    intro i
    omega
  have hc : (CompletionFunc st pfx lc).completions
      = (scanBack pfx st.history (startIndex st) lc (startIndex st + 1).toNat).completions :=
    rfl
  have hh : (CompletionFunc st pfx lc).state.hidx
      = (scanBack pfx st.history (startIndex st) lc (startIndex st + 1).toNat).hidx := rfl
  rw [hc, hh]
  refine ⟨hstart, ?_, ?_, ?_⟩
  · rcases scanBack_cases pfx st.history (startIndex st) lc (startIndex st + 1).toNat with
      ⟨-, -, h2⟩ | ⟨i, line, -, -, -, -, -, h2⟩
    · rw [h2]
      omega
    · rw [h2]
      simp
  · rintro ⟨i0, line0, hi0, hl0, hm0⟩
    rcases scanBack_cases pfx st.history (startIndex st) lc (startIndex st + 1).toNat with
      ⟨hall, -, -⟩ | ⟨i, line, hi, hl, hm, hgt, h1, h2⟩
    · exact absurd hm0 (hall i0 line0 ((hlt i0).1 hi0) hl0)
    · exact ⟨i, line, (hlt i).2 hi, hl, hm,
        fun j l hj1 hj2 hl2 => hgt j l hj1 ((hlt j).1 hj2) hl2, h2, h1⟩
  · intro hno
    rcases scanBack_cases pfx st.history (startIndex st) lc (startIndex st + 1).toNat with
      ⟨-, -, h2⟩ | ⟨i, line, hi, hl, hm, -, -, -⟩
    · exact h2
    · exact absurd ⟨i, line, (hlt i).2 hi, hl, hm⟩ hno

/-- C7: whatever the cursor was before, after `nextline` returns with a line
the cursor is `-1`, and the next call of `CompletionFunc` starts its scan at
the index `historyLen - 1`, where the line just added is. -/
theorem nextline_resets_cursor (st : State) (prompt : List Nat) (ncprs : Int) (response : Mem)
    (lenrs : Int) (line : List Nat) (out : Line)
    (h : nextline st prompt ncprs response lenrs (some line) = .ok out) :
    out.state.hidx = -1 ∧
    startIndex out.state = linenoiseHistoryLen out.state.history - 1 ∧
    linenoiseHistoryLine out.state.history (linenoiseHistoryLen out.state.history - 1)
      = some line ∧
    ∀ pfx lc, (CompletionFunc out.state pfx lc).visited.head?
      = some (linenoiseHistoryLen out.state.history - 1) := by
  obtain ⟨-, -, hx, -, hh, -⟩ := nextline_ok h
  have hhist := hh line rfl
  have hs : startIndex out.state = linenoiseHistoryLen out.state.history - 1 := by
    unfold startIndex
    rw [hx]
    rfl
  have hlen : linenoiseHistoryLen out.state.history - 1 = (st.history.length : Int) := by
    unfold linenoiseHistoryLen
    rw [hhist]
    simp [linenoiseHistoryAdd]
  refine ⟨hx, hs, ?_, fun pfx lc => ?_⟩
  · rw [hlen, linenoiseHistoryLine_natCast, hhist]
    simp [linenoiseHistoryAdd]
  · have hv : (CompletionFunc out.state pfx lc).visited
        = (scanBack pfx out.state.history (startIndex out.state) lc
            (startIndex out.state + 1).toNat).visited := rfl
    have hn : (startIndex out.state + 1).toNat = st.history.length + 1 := by
      rw [hs, hlen]
      omega
    rw [hv, hn, scanBack_visited_head, hlen]

/-- Witness of C7: the cursor is at 0 when the line "add 7 8" is read. -/
theorem nextline_resets_cursor_witness :
    ∃ out, nextline ⟨0, 0, exampleHistory⟩ [62] 1 (fun _ => 32) 8
        (some [97, 100, 100, 32, 55, 32, 56]) = .ok out ∧
      (out.state.hidx = -1 ∧
      startIndex out.state = linenoiseHistoryLen out.state.history - 1 ∧
      linenoiseHistoryLine out.state.history (linenoiseHistoryLen out.state.history - 1)
        = some [97, 100, 100, 32, 55, 32, 56] ∧
      ∀ pfx lc, (CompletionFunc out.state pfx lc).visited.head?
        = some (linenoiseHistoryLen out.state.history - 1)) :=
  ⟨_, rfl, nextline_resets_cursor ⟨0, 0, exampleHistory⟩ [62] 1 (fun _ => 32) 8
    [97, 100, 100, 32, 55, 32, 56] _ rfl⟩

/-- C8: in every state reached from an initial state, where the cursor is
`-1`, by calls of `nextline` and `CompletionFunc`, the cursor is `-1` or an
index of the history, `0 ≤ hidx < historyLen`.  The history changes only in
`nextline`, which unsets the cursor, so that the length of the history is the
one the cursor was set under. -/
theorem reachable_cursor_valid (s : State) (h : Reachable s) :
    s.hidx = -1 ∨ (0 ≤ s.hidx ∧ s.hidx < linenoiseHistoryLen s.history) := by
  induction h with
  | init color history => exact Or.inl rfl
  | step hs hstep ih =>
    cases hstep with
    | nextline prompt ncprs response lenrs ln_response out hn =>
      exact Or.inl (nextline_ok hn).2.2.1
    | completion pfx lc =>
      rename_i s0
      have hb := CompletionFunc_cursor_bounds s0 pfx lc
      have hst : -1 ≤ startIndex s0 ∧ startIndex s0 < linenoiseHistoryLen s0.history := by
        unfold startIndex linenoiseHistoryLen
        unfold linenoiseHistoryLen at ih
        by_cases hneg : s0.hidx < 0
        · rw [if_pos hneg]
          omega
        · rw [if_neg hneg]
          omega
      rw [CompletionFunc_history]
      omega

/-- Witness of C8: the state after one trigger with the text "add" on the
history of the example, where the cursor is 0. -/
theorem reachable_cursor_valid_witness :
    Reachable (CompletionFunc ⟨0, -1, exampleHistory⟩ exampleAdd []).state ∧
    ((CompletionFunc ⟨0, -1, exampleHistory⟩ exampleAdd []).state.hidx = -1 ∨
      (0 ≤ (CompletionFunc ⟨0, -1, exampleHistory⟩ exampleAdd []).state.hidx ∧
        (CompletionFunc ⟨0, -1, exampleHistory⟩ exampleAdd []).state.hidx
          < linenoiseHistoryLen
              (CompletionFunc ⟨0, -1, exampleHistory⟩ exampleAdd []).state.history)) :=
  ⟨Reachable.step (Reachable.init 0 exampleHistory) (Step.completion _ exampleAdd []),
    reachable_cursor_valid _
      (Reachable.step (Reachable.init 0 exampleHistory) (Step.completion _ exampleAdd []))⟩

end Koko
